import Mathlib

/-!
# Verification of the azure-time-tracker core

Shallow embedding of the time-entry aggregation and audit model of the
`azure-time-tracker` repository (source: `src/shared/timeEntryService.ts`,
the reports page `src/unnamed/part_001`, and the model declarations in
`src/unnamed/part_002`), together with proofs of the claims about it.

Conventions of the embedding:
* JavaScript objects become Lean structures; a property that may be absent
  (`undefined`/`null`) becomes an `Option` field.
* JavaScript numbers that hold hour values are modelled as `Rat` (the code
  only ever adds/compares them; no floating-point rounding is relevant to
  the claims).  Work-item ids are modelled as `Int`; the redundant
  `Number(doc.workItemId)` normalization in the source is the identity on
  numbers and is noted where it occurs.
* The asynchronous document store is modelled by passing the outcome of each
  store call (`Except StoreErr _`) explicitly to the operation that makes it.
* JavaScript truthiness on optional strings (`a || b` where `""` is falsy)
  is captured by `jsOr` / `jsOrNone`.
-/

namespace TimeTracker

/-- Source `models.ts` — `TimeLog`: a single log of hours for a specific date. -/
structure TimeLog where
  date : String
  hours : Rat
deriving DecidableEq, Repr

/-- Source `models.ts` — `AuditLogEntry`.  `action` is the literal string
`"created"` or `"updated"` as in the source. -/
structure AuditLogEntry where
  timestamp : String
  userId : String
  userName : String
  action : String
  previousHours : Rat
  newHours : Rat
  notes : Option String
deriving DecidableEq, Repr

/-- A stored `TimeEntries` document.  Fields that a raw document loaded from
the store may lack (legacy records, documents never written by this
service's current code) are `Option`s; documents written by `setTimeEntry`
fill all of them.  `hours` and `date` are present because `setTimeEntry`
spreads its input (which carries them) into the written document.
`etag` models the store's `__etag` concurrency token. -/
structure TimeEntryDoc where
  id : String
  workItemId : Int
  workItemTitle : Option String
  workItemType : Option String
  projectId : String
  projectName : Option String
  logs : Option (List TimeLog)
  description : String
  userId : String
  userName : Option String
  hours : Option Rat
  date : Option String
  createdAt : Option String
  updatedAt : Option String
  auditLog : Option (List AuditLogEntry)
  etag : Option Int
deriving DecidableEq, Repr

/-- The argument of `setTimeEntry`:
`Omit<TimeEntry, "id"|"createdAt"|"updatedAt"|"auditLog"> & {hours, date}`. -/
structure EntryInput where
  workItemId : Int
  workItemTitle : Option String
  workItemType : Option String
  projectId : String
  projectName : Option String
  description : String
  userId : String
  userName : Option String
  hours : Rat
  date : String
deriving DecidableEq, Repr

/-- A network/auth failure of the document store (`StoreUnavailable` in the
spec's taxonomy; a stale concurrency token surfaces the same way). -/
inductive StoreErr where
  | network
  | auth
  | staleToken
deriving DecidableEq, Repr

/-- JavaScript `a || b` for an optional string `a`: `undefined` and the
empty string are falsy. -/
def jsOr (a : Option String) (b : String) : String :=
  match a with
  | some s => if s = "" then b else s
  | none => b

/-- JavaScript `c || undefined` for an optional string `c`
(source: `notes: comment || undefined`). -/
def jsOrNone (c : Option String) : Option String :=
  match c with
  | some s => if s = "" then none else some s
  | none => none

/-- Source `timeEntryService.ts` line 45: `` `time-entry-${workItemId}-${userId}` ``. -/
def generateId (workItemId : Int) (userId : String) : String :=
  "time-entry-" ++ toString workItemId ++ "-" ++ userId

/-- Source `timeEntryService.ts` lines 156-160 (and identically 205-208): the
legacy-migration shim.  If the document has no `logs` array but has a
legacy scalar `hours` field, synthesize a one-element `logs` array whose
date is `(doc.updatedAt || doc.createdAt || now).slice(0, 10)`.
(`Number(doc.hours) || 0` is the identity on the numeric `hours` model;
an empty `logs` array is truthy in JS, so a present-but-empty list is not
migrated, matching `!doc.logs || !Array.isArray(doc.logs)`.) -/
def migrateDoc (now : String) (doc : TimeEntryDoc) : TimeEntryDoc :=
  match doc.logs, doc.hours with
  | none, some h =>
      { doc with logs := some [⟨(jsOr doc.updatedAt (jsOr doc.createdAt now)).take 10, h⟩] }
  | _, _ => doc

/-- Source `timeEntryService.ts` lines 151-169, `getTimeEntry`: the read outcome is
passed in (`readRes`).  A store failure is caught and becomes `null`; a
missing document is `null`; otherwise the legacy shim is applied.
(The source also runs `doc.workItemId = Number(doc.workItemId)`, the
identity on this model's numeric `workItemId`.) -/
def getTimeEntry (readRes : Except StoreErr (Option TimeEntryDoc)) (now : String) :
    Option TimeEntryDoc :=
  match readRes with
  | .error _ => none
  | .ok none => none
  | .ok (some doc) => some (migrateDoc now doc)

/-- Source `timeEntryService.ts` lines 93-102: copy the existing logs, find the
first log whose date equals the input date; overwrite its hours in place if
found, else push `{date, hours}`.  Mirrors `findIndex` + indexed assignment
/ `push` via `findIdx?` + `set` / append. -/
def updLogs (logs0 : List TimeLog) (date : String) (hours : Rat) : List TimeLog :=
  match logs0.findIdx? (fun l => l.date == date) with
  | some i => logs0.set i ⟨date, hours⟩
  | none => logs0 ++ [⟨date, hours⟩]

/-- Source `timeEntryService.ts` lines 96-99: `previousHours` is the matched log's
hours before the write, `0` when no log for the date exists. -/
def prevHoursOf (logs0 : List TimeLog) (date : String) : Rat :=
  match logs0.findIdx? (fun l => l.date == date) with
  | some i => ((logs0.get? i).getD ⟨"", 0⟩).hours
  | none => 0

/-- Source expression `existingEntry?.logs ? [...existingEntry.logs] : []` (line 93): the logs
of an optional document, `[]` when the document or its `logs` field is
absent.  (An empty present array is truthy in JS and is kept as-is, which
coincides with `getD`.) -/
def docLogs : Option TimeEntryDoc → List TimeLog
  | none => []
  | some d => d.logs.getD []

/-- Source expression `existingEntry?.auditLog || []` (line 116). -/
def docAudit : Option TimeEntryDoc → List AuditLogEntry
  | none => []
  | some d => d.auditLog.getD []

/-- The pure core of `timeEntryService.ts` lines 85-137 (`setTimeEntry`)
after the store read: given the already-loaded-and-migrated existing
document (`existing`, the result of `getTimeEntry`), the input, the audit
comment, and the current timestamp `now`, produce the document that is
written to the store and returned. -/
def setTimeEntryCore (existing : Option TimeEntryDoc) (e : EntryInput)
    (comment : Option String) (now : String) : TimeEntryDoc :=
  -- lines 93: `existingEntry?.logs ? [...existingEntry.logs] : []`
  let logs0 : List TimeLog := docLogs existing
  let logs := updLogs logs0 e.date e.hours
  -- line 111: `logIdx >= 0 ? logs[logIdx].hours : entry.hours`; after the
  -- in-place overwrite both branches equal `entry.hours`
  let newHours : Rat := match logs0.findIdx? (fun l => l.date == e.date) with
    | some i => ((logs.get? i).getD ⟨"", 0⟩).hours
    | none => e.hours
  -- lines 105-113
  let auditEntry : AuditLogEntry :=
    { timestamp := now
      userId := e.userId
      userName := jsOr e.userName e.userId
      action := if existing.isSome then "updated" else "created"
      previousHours := prevHoursOf logs0 e.date
      newHours := newHours
      notes := jsOrNone comment }
  -- lines 116-117: `existingEntry?.auditLog || []` then push
  let auditLog : List AuditLogEntry := docAudit existing ++ [auditEntry]
  -- lines 120-134
  { id := generateId e.workItemId e.userId
    workItemId := e.workItemId
    workItemTitle := e.workItemTitle
    workItemType := e.workItemType
    projectId := e.projectId
    projectName := e.projectName
    logs := some logs
    description := e.description
    userId := e.userId
    userName := e.userName
    hours := some e.hours
    date := some e.date
    createdAt := some (jsOr (existing.bind (·.createdAt)) now)
    updatedAt := some now
    auditLog := some auditLog
    etag := existing.bind (·.etag) }

/-- Source `timeEntryService.ts` lines 85-138, `setTimeEntry` with its two store
interactions made explicit: `readRes` is the outcome of the
`getDocument` call inside `getTimeEntry` (whose failure is caught there and
becomes `null`), `writeRes` the outcome of the final `setDocument` call
(whose failure propagates — there is no `try`/`catch` around it and no
retry). -/
def setTimeEntry (readRes : Except StoreErr (Option TimeEntryDoc))
    (writeRes : Except StoreErr Unit) (e : EntryInput) (comment : Option String)
    (now : String) : Except StoreErr TimeEntryDoc :=
  let existing := getTimeEntry readRes now
  let doc := setTimeEntryCore existing e comment now
  match writeRes with
  | .error err => .error err
  | .ok _ => .ok doc

/-! ### Sequences of `setTimeEntry` calls

A call sequence for one `(workItemId, userId)` pair, each call reading the
document left by the previous one (the successful read/write path: the read
returns the stored document, the write succeeds).  This is exactly the state
threading of the service for a fixed document id. -/

/-- One `setTimeEntry` call's inputs: the entry data, the optional audit
comment, and the timestamp the call observes as `now`. -/
structure WriteCall where
  entry : EntryInput
  comment : Option String
  now : String
deriving DecidableEq, Repr

/-- One `setTimeEntry` call on the current stored state `s`: the read
succeeds and returns `s` (so `getTimeEntry` applies the legacy shim), the
core computes the document that the succeeding write stores. -/
def stepWrite (s : Option TimeEntryDoc) (c : WriteCall) : TimeEntryDoc :=
  setTimeEntryCore (getTimeEntry (Except.ok s) c.now) c.entry c.comment c.now

/-- Run a sequence of `setTimeEntry` calls, each reading the state left by
the previous one. -/
def runWrites (s : Option TimeEntryDoc) : List WriteCall → Option TimeEntryDoc
  | [] => s
  | c :: cs => runWrites (some (stepWrite s c)) cs

/-- The hours recorded in a log list for a given date: the first (and, when
dates are distinct, only) matching entry's hours. -/
def hoursOf (L : List TimeLog) (dt : String) : Option Rat :=
  (L.find? (fun l => l.date == dt)).map (·.hours)

/-- The most recently written hours value for date `dt` in a call
sequence. -/
def lastHoursFor (calls : List WriteCall) (dt : String) : Option Rat :=
  ((calls.filter (fun c => c.entry.date == dt)).getLast?).map (·.entry.hours)

/-- The audit event the spec predicts for a call `c` arriving after the call
history `pre` (for a record that did not exist before `pre`): action
`"created"` exactly on the first call, `previousHours` the most recently
written value for the call's date (`0` if none), `newHours` the written
value. -/
def mkEvent (pre : List WriteCall) (c : WriteCall) : AuditLogEntry :=
  { timestamp := c.now
    userId := c.entry.userId
    userName := jsOr c.entry.userName c.entry.userId
    action := if pre = [] then "created" else "updated"
    previousHours := (lastHoursFor pre c.entry.date).getD 0
    newHours := c.entry.hours
    notes := jsOrNone c.comment }

/-- The audit log the spec predicts for a call sequence (`pre` is the
history accumulated so far). -/
def expectedAudit (pre : List WriteCall) : List WriteCall → List AuditLogEntry
  | [] => []
  | c :: cs => mkEvent pre c :: expectedAudit (pre ++ [c]) cs

/-- The concrete example of spec §8: first call, hours 3. -/
def exampleInput : EntryInput :=
  { workItemId := 42
    workItemTitle := some "Title"
    workItemType := some "Task"
    projectId := "proj"
    projectName := some "Proj"
    description := "desc"
    userId := "u1"
    userName := some "User One"
    hours := 3
    date := "2024-01-01" }

/-- The two calls of the spec §8 example: hours 3 then hours 5 on the same
date for the same pair. -/
def exampleCalls : List WriteCall :=
  [ { entry := exampleInput, comment := none, now := "2024-01-01T10:00:00.000Z" },
    { entry := { exampleInput with hours := 5 }, comment := none,
      now := "2024-01-01T11:00:00.000Z" } ]

/-- Source `timeEntryService.ts` lines 198-218, `getAllTimeEntries`: on a store
failure return `[]`; on success map the legacy shim (and the identity
`workItemId` numeric normalization) over every document; an
empty/absent result short-circuits to `[]`. -/
def getAllTimeEntries (readRes : Except StoreErr (List TimeEntryDoc))
    (now : String) : List TimeEntryDoc :=
  match readRes with
  | .error _ => []
  | .ok docs => if docs.isEmpty then [] else docs.map (migrateDoc now)

/-! ## Reports page (`src/unnamed/part_001`) -/

/-- Source `part_001` lines 34-45 — `FlatLog`: one flattened daily log row carrying
the denormalized record metadata. -/
structure FlatLog where
  workItemId : Int
  workItemTitle : Option String
  workItemType : Option String
  projectId : String
  projectName : Option String
  userId : String
  userName : Option String
  description : String
  date : String
  hours : Rat
deriving DecidableEq, Repr

/-- The raw values of the four filter input controls plus the work-item-id
input, as read by `applyFilters` (`part_001` lines 250-258); an empty
control value means "no constraint" (`value || undefined`). -/
structure FilterInputs where
  startDate : String
  endDate : String
  userId : String
  workItemType : String
  workItemId : String
deriving DecidableEq, Repr

/-- Source expression `value || undefined`. -/
def strOpt (s : String) : Option String :=
  if s = "" then none else some s

/-- The predicate of `part_001` lines 261-278: the early-return chain of
`filteredLogs = flatLogs.filter(log => ...)`, one test per criterion,
each comparing strings (`log.date < start`, `log.date > end`) or exact
(in)equality. -/
def logPassesFilter (startDate endDate userId workItemType workItemId : Option String)
    (log : FlatLog) : Bool :=
  if (match startDate with
      | some s => decide (log.date < s)
      | none => false) then false
  else if (match endDate with
      | some e => decide (e < log.date)
      | none => false) then false
  else if (match userId with
      | some u => decide (log.userId ≠ u)
      | none => false) then false
  else if (match workItemType with
      | some t => decide (log.workItemType ≠ some t)
      | none => false) then false
  else if (match workItemId with
      | some w => decide (toString log.workItemId ≠ w)
      | none => false) then false
  else true

/-- Source `part_001` lines 249-278, `applyFilters` (the filtering itself; the
DOM/summary side effects are out of scope): build the current filter from
the control values (`|| undefined`) and keep the rows passing every
provided criterion. -/
def applyFilters (inputs : FilterInputs) (flatLogs : List FlatLog) : List FlatLog :=
  flatLogs.filter
    (logPassesFilter (strOpt inputs.startDate) (strOpt inputs.endDate)
      (strOpt inputs.userId) (strOpt inputs.workItemType) (strOpt inputs.workItemId))

/-- The spec's reading of one filter criterion set (§4.2 `filter`): date
range inclusive on both ends compared as calendar-date strings on the row's
own log date, exact matches elsewhere, absent criteria unconstrained, all
provided criteria conjoined. -/
def satisfiesCriteria (startDate endDate userId workItemType workItemId : Option String)
    (log : FlatLog) : Prop :=
  (∀ s, startDate = some s → s ≤ log.date) ∧
  (∀ e, endDate = some e → log.date ≤ e) ∧
  (∀ u, userId = some u → log.userId = u) ∧
  (∀ t, workItemType = some t → log.workItemType = some t) ∧
  (∀ w, workItemId = some w → toString log.workItemId = w)

instance (s e u t w : Option String) (log : FlatLog) :
    Decidable (satisfiesCriteria s e u t w log) := by
  unfold satisfiesCriteria
  infer_instance

/-! ## CSV export (`part_001` lines 411-442, `exportToCSV`)

The emitter and a standard (RFC-4180-style, newline-lenient) CSV parser,
both over `List Char`. -/

/-- Source expression `.replace(/"/g, '""')` — double every quote character. -/
def escQuotes : List Char → List Char
  | [] => []
  | c :: cs => if c = '"' then '"' :: '"' :: escQuotes cs else c :: escQuotes cs

/-- Source `part_001` lines 421-428: the field strings of one CSV data row, in
order: `#id`, type (`|| '-'`), hours, user (`userName || userId || '-'`),
quoted/escaped description, date.  (A number joined into the row is
stringified, modelled by `toString`.) -/
def csvRowFields (log : FlatLog) : List (List Char) :=
  [ '#' :: (toString log.workItemId).data,
    (jsOr log.workItemType "-").data,
    (toString log.hours).data,
    (jsOr log.userName (jsOr (some log.userId) "-")).data,
    '"' :: escQuotes log.description.data ++ ['"'],
    log.date.data ]

/-- Source `part_001` line 418: the header row. -/
def csvHeader : List Char := "Work Item,Type,Hours,User,Description,Date".data

/-- Source method `Array.prototype.join(sep)` on a list of character lists. -/
def joinSep (sep : Char) : List (List Char) → List Char
  | [] => []
  | [f] => f
  | f :: fs => f ++ sep :: joinSep sep fs

/-- Source `part_001` lines 417-430, the text built by `exportToCSV`: header and
one comma-joined row per log, rows joined by `\n`. -/
def exportToCSV (logs : List FlatLog) : List Char :=
  joinSep '\n' (csvHeader :: logs.map (fun log => joinSep ',' (csvRowFields log)))

/-- A standard CSV parsing automaton.  State: remaining input, inside-quotes
flag, current field accumulator, current row accumulator, finished rows.
Outside quotes: `"` opens a quoted section, `,` ends the field, `\n` ends
the row; inside quotes `""` is an escaped quote and a lone `"` closes the
section.  The final field/row is flushed at end of input. -/
def csvParseAux : List Char → Bool → List Char → List (List Char) →
    List (List (List Char)) → List (List (List Char))
  | [], _, fld, row, rows => rows ++ [row ++ [fld]]
  | c :: cs, true, fld, row, rows =>
      if c = '"' then
        match cs with
        | c' :: cs' =>
            if c' = '"' then csvParseAux cs' true (fld ++ ['"']) row rows
            else csvParseAux (c' :: cs') false fld row rows
        | [] => rows ++ [row ++ [fld]]
      else csvParseAux cs true (fld ++ [c]) row rows
  | c :: cs, false, fld, row, rows =>
      if c = '"' then csvParseAux cs true fld row rows
      else if c = ',' then csvParseAux cs false [] (row ++ [fld]) rows
      else if c = '\n' then csvParseAux cs false [] [] (rows ++ [row ++ [fld]])
      else csvParseAux cs false (fld ++ [c]) row rows

/-- Parse a CSV text into its rows of fields. -/
def parseCSV (text : List Char) : List (List (List Char)) :=
  csvParseAux text false [] [] []

/-- The field values a faithful parse of a data row must recover: the raw
description (unquoted, unescaped) in place of the quoted field. -/
def expectedFields (log : FlatLog) : List (List Char) :=
  [ '#' :: (toString log.workItemId).data,
    (jsOr log.workItemType "-").data,
    (toString log.hours).data,
    (jsOr log.userName (jsOr (some log.userId) "-")).data,
    log.description.data,
    log.date.data ]

/-- The header split into its six field values. -/
def csvHeaderFields : List (List Char) :=
  ["Work Item".data, "Type".data, "Hours".data, "User".data,
    "Description".data, "Date".data]

/-- A field value that needs no quoting: free of the delimiter, the quote
character and line breaks. -/
def cleanField (f : List Char) : Prop :=
  ',' ∉ f ∧ '"' ∉ f ∧ '\n' ∉ f

instance (f : List Char) : Decidable (cleanField f) := by
  unfold cleanField
  infer_instance

/-- The row-level cleanliness hypothesis of the amended CSV round-trip
claim: every field the exporter emits unquoted (work-item id, type, hours,
user, date) is free of delimiter/quote/line-break characters.  The
description is exempt: it is emitted quoted and escaped. -/
def cleanRow (log : FlatLog) : Prop :=
  cleanField ('#' :: (toString log.workItemId).data) ∧
  cleanField (jsOr log.workItemType "-").data ∧
  cleanField (toString log.hours).data ∧
  cleanField (jsOr log.userName (jsOr (some log.userId) "-")).data ∧
  cleanField log.date.data

instance (log : FlatLog) : Decidable (cleanRow log) := by
  unfold cleanRow
  infer_instance

/-- A flattened row whose user display name contains the CSV delimiter; the
exporter emits the user field unquoted. -/
def commaUserLog : FlatLog :=
  { workItemId := 7
    workItemTitle := some "t"
    workItemType := some "Bug"
    projectId := "p"
    projectName := none
    userId := "u1"
    userName := some "Doe, John"
    description := "plain"
    date := "2024-02-03"
    hours := 5 }

/-- A flattened row whose description exercises the quoting path (delimiter,
quote and line break inside the quoted field) while all unquoted fields are
clean. -/
def trickyDescLog : FlatLog :=
  { commaUserLog with
    userName := some "Jane"
    description := "said \"hi\", then\nleft" }

/-- The invariant tying the stored state after a call sequence to the
history of calls: the state exists iff some call ran; a written document
always carries a `logs` array; log dates are pairwise distinct; the hours
recorded for each date are the most recently written ones; and the audit
log is exactly the predicted event sequence. -/
def ChainInv (s : Option TimeEntryDoc) (hist : List WriteCall) : Prop :=
  (s.isSome = true ↔ hist ≠ []) ∧
  (∀ d, s = some d → d.logs.isSome = true) ∧
  ((docLogs s).map (·.date)).Nodup ∧
  (∀ dt, hoursOf (docLogs s) dt = lastHoursFor hist dt) ∧
  docAudit s = expectedAudit [] hist

/-- A stored legacy document: no `logs` array, a scalar `hours` field, and
timestamps predating the multi-log format. -/
def exLegacyDoc : TimeEntryDoc :=
  { id := "time-entry-9-u2"
    workItemId := 9
    workItemTitle := some "Old"
    workItemType := some "Bug"
    projectId := "proj"
    projectName := some "Proj"
    logs := none
    description := "legacy"
    userId := "u2"
    userName := some "User Two"
    hours := some 4
    date := none
    createdAt := some "2023-05-01T08:00:00.000Z"
    updatedAt := some "2023-06-02T09:30:00.000Z"
    auditLog := none
    etag := some 3 }

/-- A fully populated stored document carrying a concurrency token, as left
by an earlier `setTimeEntry` write. -/
def exStoredDoc : TimeEntryDoc :=
  setTimeEntryCore none exampleInput none "2024-01-01T10:00:00.000Z"

/-- Source `models.ts` — `TimeTrackerSettings`. -/
structure TimeTrackerSettings where
  hourIncrement : Rat
deriving DecidableEq, Repr

/-- A stored settings document: a partial `TimeTrackerSettings` (the stored
JSON may lack the key). -/
structure PartialSettings where
  hourIncrement : Option Rat
deriving DecidableEq, Repr

/-- Source `timeEntryService.ts` lines 12-14. -/
def DEFAULT_SETTINGS : TimeTrackerSettings := { hourIncrement := 1/2 }

/-- Source `timeEntryService.ts` lines 52-60, `getSettings`: the outcome of the
`getDocument` read is passed in.  A failure is caught and yields the
defaults; a loaded document is spread over the defaults
(`{ ...DEFAULT_SETTINGS, ...settings }`): a present key overrides, a
missing key falls back. -/
def getSettings (readRes : Except StoreErr PartialSettings) : TimeTrackerSettings :=
  match readRes with
  | .error _ => DEFAULT_SETTINGS
  | .ok s => { hourIncrement := s.hourIncrement.getD DEFAULT_SETTINGS.hourIncrement }

/-! ## Lemmas about the daily-log upsert -/

theorem updLogs_nil (d : String) (h : Rat) : updLogs [] d h = [⟨d, h⟩] := by
  simp [updLogs]

theorem updLogs_cons (l : TimeLog) (L : List TimeLog) (d : String) (h : Rat) :
    updLogs (l :: L) d h =
      if l.date = d then ⟨d, h⟩ :: L else l :: updLogs L d h := by
  unfold updLogs
  rw [List.findIdx?_cons]
  by_cases hd : l.date = d
  · simp [hd]
  · rw [if_neg (by simpa using hd), if_neg hd, List.findIdx?_succ]
    cases hfi : List.findIdx? (fun x => x.date == d) L with
    | none => simp [hfi]
    | some i => simp [hfi, List.set_cons_succ]

theorem hoursOf_nil (dt : String) : hoursOf [] dt = none := rfl

theorem hoursOf_cons (l : TimeLog) (L : List TimeLog) (dt : String) :
    hoursOf (l :: L) dt = if l.date = dt then some l.hours else hoursOf L dt := by
  unfold hoursOf
  rw [List.find?_cons]
  by_cases hd : l.date = dt
  · simp [hd]
  · rw [if_neg hd]
    simp only [show (l.date == dt) = false by simpa using hd]

theorem hoursOf_updLogs_self (L : List TimeLog) (d : String) (h : Rat) :
    hoursOf (updLogs L d h) d = some h := by
  induction L with
  | nil => simp [updLogs_nil, hoursOf_cons]
  | cons l L ih =>
      rw [updLogs_cons]
      by_cases hd : l.date = d
      · simp [hd, hoursOf_cons]
      · simp [hd, hoursOf_cons, ih]

theorem hoursOf_updLogs_other (L : List TimeLog) (d d' : String) (h : Rat)
    (hne : d' ≠ d) :
    hoursOf (updLogs L d h) d' = hoursOf L d' := by
  have hne' : ¬(d = d') := fun hc => hne hc.symm
  induction L with
  | nil => simp [updLogs_nil, hoursOf_cons, hoursOf_nil, hne']
  | cons l L ih =>
      rw [updLogs_cons]
      by_cases hd : l.date = d
      · rw [if_pos hd, hoursOf_cons, hoursOf_cons, if_neg (by simpa using hne'),
          if_neg (by rw [hd]; exact hne')]
      · rw [if_neg hd, hoursOf_cons, hoursOf_cons, ih]

theorem dates_updLogs (L : List TimeLog) (d : String) (h : Rat) :
    (updLogs L d h).map (·.date) =
      if d ∈ L.map (·.date) then L.map (·.date) else L.map (·.date) ++ [d] := by
  induction L with
  | nil => simp [updLogs_nil]
  | cons l L ih =>
      rw [updLogs_cons]
      by_cases hd : l.date = d
      · rw [if_pos hd]
        have hm : d ∈ (l :: L).map (·.date) := by
          simp [hd.symm]
        rw [if_pos hm]
        simp [hd]
      · rw [if_neg hd]
        have hiff : d ∈ (l :: L).map (·.date) ↔ d ∈ L.map (·.date) := by
          simp [List.mem_cons]
          intro hc
          exact absurd hc.symm hd
        by_cases hm : d ∈ L.map (·.date)
        · rw [if_pos (hiff.mpr hm)]
          simp [ih, hm]
        · rw [if_neg (fun hc => hm (hiff.mp hc))]
          simp [ih, hm]

theorem nodup_dates_updLogs (L : List TimeLog) (d : String) (h : Rat)
    (hnd : (L.map (·.date)).Nodup) : ((updLogs L d h).map (·.date)).Nodup := by
  rw [dates_updLogs]
  by_cases hm : d ∈ L.map (·.date)
  · simpa [hm] using hnd
  · simp [hm, hnd, List.nodup_append]

theorem hoursOf_eq_none (L : List TimeLog) (dt : String) :
    hoursOf L dt = none ↔ dt ∉ L.map (·.date) := by
  unfold hoursOf
  rw [Option.map_eq_none', List.find?_eq_none]
  simp

theorem find?_date_self (L : List TimeLog) (l : TimeLog) :
    ((L.map (·.date)).Nodup) → l ∈ L → L.find? (fun x => x.date == l.date) = some l := by
  induction L with
  | nil => intro _ hl; cases hl
  | cons a L ih =>
      intro hnd hl
      have hnd' : a.date ∉ L.map (·.date) ∧ (L.map (·.date)).Nodup := by
        rw [List.map_cons] at hnd
        exact List.nodup_cons.mp hnd
      rw [List.find?_cons]
      by_cases ha : a.date = l.date
      · rcases List.mem_cons.mp hl with rfl | hl'
        · simp
        · exact absurd (ha ▸ List.mem_map_of_mem (·.date) hl') hnd'.1
      · rcases List.mem_cons.mp hl with rfl | hl'
        · exact absurd rfl ha
        · simp only [show (a.date == l.date) = false by simpa using ha]
          exact ih hnd'.2 hl'

theorem prevHoursOf_eq (L : List TimeLog) (d : String) :
    prevHoursOf L d = (hoursOf L d).getD 0 := by
  induction L with
  | nil => rfl
  | cons l L ih =>
      unfold prevHoursOf
      rw [List.findIdx?_cons]
      by_cases hd : l.date = d
      · simp [hd, hoursOf_cons]
      · rw [if_neg (by simpa using hd), List.findIdx?_succ, hoursOf_cons, if_neg hd]
        cases hfi : List.findIdx? (fun x => x.date == d) L with
        | none =>
            have h2 : prevHoursOf L d = 0 := by
              unfold prevHoursOf; rw [hfi]
            rw [← ih, h2]
            simp [hfi]
        | some i =>
            have h2 : prevHoursOf L d = ((L.get? i).getD ⟨"", 0⟩).hours := by
              unfold prevHoursOf; rw [hfi]
            rw [← ih, h2]
            simp [hfi, List.get?_cons_succ]

theorem newHours_eq (L : List TimeLog) (d : String) (h : Rat) :
    (match L.findIdx? (fun l => l.date == d) with
      | some i => (((updLogs L d h).get? i).getD ⟨"", 0⟩).hours
      | none => h) = h := by
  induction L with
  | nil => simp
  | cons l L ih =>
      rw [List.findIdx?_cons]
      by_cases hd : l.date = d
      · simp [hd, updLogs_cons]
      · rw [if_neg (by simpa using hd), List.findIdx?_succ, updLogs_cons, if_neg hd]
        cases hfi : List.findIdx? (fun x => x.date == d) L with
        | none => simp [hfi]
        | some i =>
            rw [hfi] at ih
            simpa [hfi, List.get?_cons_succ] using ih

/-! ## Lemmas about `setTimeEntryCore` and call chains -/

theorem core_logs (ex : Option TimeEntryDoc) (e : EntryInput) (c : Option String)
    (now : String) :
    (setTimeEntryCore ex e c now).logs = some (updLogs (docLogs ex) e.date e.hours) := rfl

theorem core_audit (ex : Option TimeEntryDoc) (e : EntryInput) (c : Option String)
    (now : String) :
    (setTimeEntryCore ex e c now).auditLog =
      some (docAudit ex ++
        [{ timestamp := now
           userId := e.userId
           userName := jsOr e.userName e.userId
           action := if ex.isSome then "updated" else "created"
           previousHours := (hoursOf (docLogs ex) e.date).getD 0
           newHours := e.hours
           notes := jsOrNone c }]) := by
  unfold setTimeEntryCore
  dsimp only
  rw [prevHoursOf_eq, newHours_eq]

theorem migrateDoc_auditLog (now : String) (d : TimeEntryDoc) :
    (migrateDoc now d).auditLog = d.auditLog := by
  unfold migrateDoc
  split <;> rfl

theorem migrateDoc_of_logs_some (now : String) (d : TimeEntryDoc)
    (h : d.logs.isSome = true) : migrateDoc now d = d := by
  unfold migrateDoc
  cases hl : d.logs with
  | none => rw [hl] at h; cases h
  | some L => cases hh : d.hours <;> simp [hl, hh]

theorem getTimeEntry_ok_of_logs (s : Option TimeEntryDoc) (now : String)
    (hs : ∀ d, s = some d → d.logs.isSome = true) :
    getTimeEntry (Except.ok s) now = s := by
  cases s with
  | none => rfl
  | some d =>
      show some (migrateDoc now d) = some d
      rw [migrateDoc_of_logs_some now d (hs d rfl)]

theorem docAudit_getTimeEntry (s : Option TimeEntryDoc) (now : String) :
    docAudit (getTimeEntry (Except.ok s) now) = docAudit s := by
  cases s with
  | none => rfl
  | some d =>
      show (migrateDoc now d).auditLog.getD [] = d.auditLog.getD []
      rw [migrateDoc_auditLog]

theorem docAudit_stepWrite (s : Option TimeEntryDoc) (c : WriteCall) :
    docAudit (some (stepWrite s c)) =
      docAudit s ++
        [{ timestamp := c.now
           userId := c.entry.userId
           userName := jsOr c.entry.userName c.entry.userId
           action := if (getTimeEntry (Except.ok s) c.now).isSome then "updated" else "created"
           previousHours :=
             (hoursOf (docLogs (getTimeEntry (Except.ok s) c.now)) c.entry.date).getD 0
           newHours := c.entry.hours
           notes := jsOrNone c.comment }] := by
  show (stepWrite s c).auditLog.getD [] = _
  unfold stepWrite
  rw [core_audit, docAudit_getTimeEntry]
  rfl

theorem runWrites_append (s : Option TimeEntryDoc) (a b : List WriteCall) :
    runWrites s (a ++ b) = runWrites (runWrites s a) b := by
  induction a generalizing s with
  | nil => rfl
  | cons c cs ih => simp [runWrites, ih]

theorem docAudit_runWrites_length (s : Option TimeEntryDoc) (cs : List WriteCall) :
    (docAudit (runWrites s cs)).length = (docAudit s).length + cs.length := by
  induction cs generalizing s with
  | nil => simp [runWrites]
  | cons c cs ih =>
      rw [runWrites, ih, docAudit_stepWrite]
      simp
      omega

theorem docAudit_runWrites_prefix (s : Option TimeEntryDoc) (cs : List WriteCall) :
    docAudit s <+: docAudit (runWrites s cs) := by
  induction cs generalizing s with
  | nil => exact List.prefix_refl _
  | cons c cs ih =>
      rw [runWrites]
      refine List.IsPrefix.trans ?_ (ih (some (stepWrite s c)))
      rw [docAudit_stepWrite]
      exact List.prefix_append _ _

theorem lastHoursFor_nil (dt : String) : lastHoursFor [] dt = none := rfl

theorem lastHoursFor_concat (hist : List WriteCall) (c : WriteCall) (dt : String) :
    lastHoursFor (hist ++ [c]) dt =
      if c.entry.date = dt then some c.entry.hours else lastHoursFor hist dt := by
  unfold lastHoursFor
  rw [List.filter_append]
  by_cases hd : c.entry.date = dt
  · simp [hd, List.getLast?_concat]
  · simp [hd]

theorem lastHoursFor_eq_none (calls : List WriteCall) (dt : String) :
    lastHoursFor calls dt = none ↔ dt ∉ calls.map (·.entry.date) := by
  unfold lastHoursFor
  rw [Option.map_eq_none', List.getLast?_eq_none_iff, List.filter_eq_nil_iff]
  simp

theorem expectedAudit_concat (l : List WriteCall) (pre : List WriteCall) (c : WriteCall) :
    expectedAudit pre (l ++ [c]) = expectedAudit pre l ++ [mkEvent (pre ++ l) c] := by
  induction l generalizing pre with
  | nil => simp [expectedAudit]
  | cons a l ih =>
      rw [List.cons_append, expectedAudit, expectedAudit, ih]
      simp [List.append_assoc]

theorem expectedAudit_get? (calls : List WriteCall) (pre : List WriteCall) (k : Nat)
    (c : WriteCall) (hk : calls.get? k = some c) :
    (expectedAudit pre calls).get? k = some (mkEvent (pre ++ calls.take k) c) := by
  induction calls generalizing pre k with
  | nil => cases hk
  | cons a cs ih =>
      cases k with
      | zero =>
          have : a = c := by simpa using hk
          subst this
          simp [expectedAudit]
      | succ k =>
          rw [List.get?_cons_succ] at hk
          rw [expectedAudit, List.get?_cons_succ, ih (pre ++ [a]) k hk,
            List.take_succ_cons]
          simp [List.append_assoc]

/-! ## The chain invariant -/

theorem chainInv_none_nil : ChainInv none [] := by
  unfold ChainInv
  refine ⟨by simp, ?_, by simp [docLogs], ?_, rfl⟩
  · intro d hd
    cases hd
  · intro dt
    rfl

theorem docLogs_stepWrite (s : Option TimeEntryDoc) (c : WriteCall)
    (hs : ∀ d, s = some d → d.logs.isSome = true) :
    docLogs (some (stepWrite s c)) = updLogs (docLogs s) c.entry.date c.entry.hours := by
  show (stepWrite s c).logs.getD [] = _
  unfold stepWrite
  rw [core_logs, getTimeEntry_ok_of_logs s c.now hs]
  rfl

theorem chainInv_step (s : Option TimeEntryDoc) (hist : List WriteCall) (c : WriteCall)
    (hinv : ChainInv s hist) : ChainInv (some (stepWrite s c)) (hist ++ [c]) := by
  unfold ChainInv at hinv ⊢
  obtain ⟨h1, h2, h3, h4, h5⟩ := hinv
  have hget : getTimeEntry (Except.ok s) c.now = s := getTimeEntry_ok_of_logs s c.now h2
  have hlogs := docLogs_stepWrite s c h2
  refine ⟨by simp, ?_, ?_, ?_, ?_⟩
  · intro d hd
    cases hd
    show (stepWrite s c).logs.isSome = true
    unfold stepWrite
    rw [core_logs]
    rfl
  · rw [hlogs]
    exact nodup_dates_updLogs _ _ _ h3
  · intro dt
    rw [hlogs, lastHoursFor_concat]
    by_cases hd : c.entry.date = dt
    · subst hd
      rw [if_pos rfl]
      exact hoursOf_updLogs_self _ _ _
    · rw [if_neg hd, hoursOf_updLogs_other _ _ _ _ (fun hc => hd hc.symm)]
      exact h4 dt
  · rw [docAudit_stepWrite, h5, expectedAudit_concat, List.nil_append]
    congr 2
    have haction :
        (if (getTimeEntry (Except.ok s) c.now).isSome = true then "updated" else "created")
          = (if hist = [] then "created" else "updated") := by
      rw [hget]
      by_cases hh : hist = []
      · have hs : s.isSome = false := by
          cases hios : s.isSome with
          | false => rfl
          | true => exact absurd (h1.mp hios) (by simp [hh])
        simp [hs, hh]
      · have hs : s.isSome = true := h1.mpr hh
        simp [hs, hh]
    have hprev :
        (hoursOf (docLogs (getTimeEntry (Except.ok s) c.now)) c.entry.date).getD 0
          = (lastHoursFor hist c.entry.date).getD 0 := by
      rw [hget, h4]
    rw [haction, hprev]
    rfl

theorem chainInv_runWrites (s : Option TimeEntryDoc) (hist : List WriteCall)
    (hinv : ChainInv s hist) (calls : List WriteCall) :
    ChainInv (runWrites s calls) (hist ++ calls) := by
  induction calls generalizing s hist with
  | nil => simpa using hinv
  | cons c cs ih =>
      rw [runWrites]
      have h := ih (some (stepWrite s c)) (hist ++ [c]) (chainInv_step s hist c hinv)
      rw [List.append_assoc] at h
      simpa using h

theorem chainInv_calls (calls : List WriteCall) :
    ChainInv (runWrites none calls) calls := by
  have h := chainInv_runWrites none [] chainInv_none_nil calls
  rwa [List.nil_append] at h

/-! ## Claim theorems: the aggregation invariants (C1, C2, C3) -/

/-- Claim C1: for every sequence of `setTimeEntry` calls for the same
(workItemId, userId) pair, each call reading the state left by the previous
one, the resulting record's logs contain at most one entry per distinct
date (their dates are pairwise distinct), the logs length equals the number
of distinct dates written, and each log's hours equals the most recently
written value for its date. -/
theorem setEntry_logs_one_per_date (w : Int) (u : String) (calls : List WriteCall)
    (_hpair : ∀ c ∈ calls, c.entry.workItemId = w ∧ c.entry.userId = u) :
    ((docLogs (runWrites none calls)).map (·.date)).Nodup ∧
    (docLogs (runWrites none calls)).length = (calls.map (·.entry.date)).toFinset.card ∧
    ∀ l ∈ docLogs (runWrites none calls), lastHoursFor calls l.date = some l.hours := by
  have h := chainInv_calls calls
  unfold ChainInv at h
  obtain ⟨h1, h2, h3, h4, h5⟩ := h
  refine ⟨h3, ?_, ?_⟩
  · have hlen : (docLogs (runWrites none calls)).length
        = ((docLogs (runWrites none calls)).map (·.date)).length := by simp
    rw [hlen, ← List.toFinset_card_of_nodup h3]
    congr 1
    ext dt
    simp only [List.mem_toFinset]
    constructor
    · intro hmem
      by_contra hnm
      have hn : lastHoursFor calls dt = none := (lastHoursFor_eq_none calls dt).mpr hnm
      exact ((hoursOf_eq_none _ dt).mp (h4 dt ▸ hn)) hmem
    · intro hmem
      by_contra hnm
      have hn : hoursOf (docLogs (runWrites none calls)) dt = none :=
        (hoursOf_eq_none _ dt).mpr hnm
      rw [h4 dt] at hn
      exact ((lastHoursFor_eq_none calls dt).mp hn) hmem
  · intro l hl
    have hfind := find?_date_self (docLogs (runWrites none calls)) l h3 hl
    have hh := h4 l.date
    unfold hoursOf at hh
    rw [hfind] at hh
    exact hh.symm

/-- Witness for C1: the spec §8 example sequence (same pair 42/"u1", same
date written twice with hours 3 then 5). -/
theorem setEntry_logs_one_per_date_witness :
    (((docLogs (runWrites none exampleCalls)).map (·.date)).Nodup ∧
      (docLogs (runWrites none exampleCalls)).length
        = (exampleCalls.map (·.entry.date)).toFinset.card) ∧
    lastHoursFor exampleCalls "2024-01-01" = some 5 := by
  have h := setEntry_logs_one_per_date 42 "u1" exampleCalls (by decide)
  exact ⟨⟨h.1, h.2.1⟩, h.2.2 ⟨"2024-01-01", 5⟩ (by decide)⟩

/-- Claim C2: the audit log after N chained calls starting from no record
has length exactly N; the audit log after any shorter prefix of the calls
is a prefix of the final one (append-only: never truncated, reordered or
mutated); and from any starting state each call grows the audit log by
exactly one event, irrespective of date collisions or equal hours. -/
theorem setEntry_audit_append_only (calls : List WriteCall) :
    (docAudit (runWrites none calls)).length = calls.length ∧
    (∀ k : Nat,
      docAudit (runWrites none (calls.take k)) <+: docAudit (runWrites none calls)) ∧
    (∀ s : Option TimeEntryDoc,
      (docAudit (runWrites s calls)).length = (docAudit s).length + calls.length) := by
  refine ⟨?_, ?_, fun s => docAudit_runWrites_length s calls⟩
  · have h := docAudit_runWrites_length none calls
    simpa [docAudit] using h
  · intro k
    conv_rhs => rw [← List.take_append_drop k calls]
    rw [runWrites_append]
    exact docAudit_runWrites_prefix _ _

/-- Claim C3: the spec §8 example — two calls on a fresh pair with the same
date, hours 3 then 5 — yields logs `[{2024-01-01, 5}]` and the audit log
`[created 0→3, updated 3→5]`; and in general the k-th audit event of a
chain from scratch is exactly the predicted event: action `"created"` for
the first call and `"updated"` afterwards, `previousHours` the last value
written for that date before the call (0 if none), `newHours` the written
value. -/
theorem setEntry_audit_created_then_updated :
    (docLogs (runWrites none exampleCalls) = [⟨"2024-01-01", 5⟩] ∧
      docAudit (runWrites none exampleCalls) =
        [⟨"2024-01-01T10:00:00.000Z", "u1", "User One", "created", 0, 3, none⟩,
         ⟨"2024-01-01T11:00:00.000Z", "u1", "User One", "updated", 3, 5, none⟩]) ∧
    ∀ (calls : List WriteCall) (k : Nat) (c : WriteCall), calls.get? k = some c →
      (docAudit (runWrites none calls)).get? k = some (mkEvent (calls.take k) c) := by
  constructor
  · exact ⟨by decide, by decide⟩
  · intro calls k c hk
    have h := chainInv_calls calls
    unfold ChainInv at h
    rw [h.2.2.2.2]
    have hg := expectedAudit_get? calls [] k c hk
    simpa using hg

/-- Witness for C3: the second call of the example sequence produces the
predicted `"updated"` event. -/
theorem setEntry_audit_created_then_updated_witness :
    (docAudit (runWrites none exampleCalls)).get? 1 =
      some (mkEvent (exampleCalls.take 1)
        { entry := { exampleInput with hours := 5 }, comment := none,
          now := "2024-01-01T11:00:00.000Z" }) :=
  setEntry_audit_created_then_updated.2 exampleCalls 1 _ (by decide)

/-! ## Claim C5: report filtering -/

theorem logPassesFilter_iff (s e u t w : Option String) (l : FlatLog) :
    logPassesFilter s e u t w l = true ↔ satisfiesCriteria s e u t w l := by
  unfold logPassesFilter satisfiesCriteria
  cases s <;> cases e <;> cases u <;> cases t <;> cases w <;>
    simp [not_lt]

/-- Claim C5: `applyFilters` returns exactly the rows satisfying the
conjunction of all provided criteria — date range inclusive on both ends,
compared as calendar-date strings against the row's own log date; exact
matches for userId, workItemType and workItemId; absent criteria impose no
constraint. -/
theorem applyFilters_exact (inputs : FilterInputs) (logs : List FlatLog) :
    applyFilters inputs logs =
      logs.filter (fun l =>
        decide (satisfiesCriteria (strOpt inputs.startDate) (strOpt inputs.endDate)
          (strOpt inputs.userId) (strOpt inputs.workItemType)
          (strOpt inputs.workItemId) l)) ∧
    ∀ l : FlatLog, l ∈ applyFilters inputs logs ↔
      l ∈ logs ∧ satisfiesCriteria (strOpt inputs.startDate) (strOpt inputs.endDate)
        (strOpt inputs.userId) (strOpt inputs.workItemType)
        (strOpt inputs.workItemId) l := by
  have hpt : ∀ l : FlatLog,
      logPassesFilter (strOpt inputs.startDate) (strOpt inputs.endDate)
        (strOpt inputs.userId) (strOpt inputs.workItemType)
        (strOpt inputs.workItemId) l
      = decide (satisfiesCriteria (strOpt inputs.startDate) (strOpt inputs.endDate)
          (strOpt inputs.userId) (strOpt inputs.workItemType)
          (strOpt inputs.workItemId) l) := by
    intro l
    rw [Bool.eq_iff_iff, decide_eq_true_eq]
    exact logPassesFilter_iff _ _ _ _ _ l
  constructor
  · unfold applyFilters
    exact List.filter_congr (fun l _ => hpt l)
  · intro l
    unfold applyFilters
    rw [List.mem_filter, hpt l, decide_eq_true_eq]

/-! ## Claims C6-C10: error handling, shim, frame conditions, settings -/

/-- Counterexample to claim C6 as stated: the store fails with a network
error on the read of the existing record, yet the call returns normally
(the read failure is swallowed inside `getTimeEntry` and the write
proceeds as a fresh create), contradicting both "propagates that failure"
and "never results in a normally-returned write". -/
theorem setEntry_read_failure_swallowed :
    setTimeEntry (.error .network) (.ok ()) exampleInput none "2024-01-01T10:00:00.000Z"
      = .ok (setTimeEntryCore none exampleInput none "2024-01-01T10:00:00.000Z") := rfl

/-- Claim C6 amended: a store failure on the final write propagates to the
caller unchanged, without an internal retry; a store failure on the read of
the existing record is swallowed — the call proceeds exactly as if no
record existed (and can therefore return a normally-completed write). -/
theorem setEntry_write_failure_propagates (readRes : Except StoreErr (Option TimeEntryDoc))
    (writeRes : Except StoreErr Unit) (e : EntryInput) (c : Option String) (now : String) :
    (∀ err, writeRes = .error err → setTimeEntry readRes writeRes e c now = .error err) ∧
    (∀ err, readRes = .error err →
      setTimeEntry readRes writeRes e c now = setTimeEntry (.ok none) writeRes e c now) := by
  constructor
  · rintro err rfl
    rfl
  · rintro err rfl
    rfl

/-- Witness for the amended C6: a stale-token write failure propagates; an
auth read failure leaves the call behaving as a fresh create. -/
theorem setEntry_write_failure_propagates_witness :
    setTimeEntry (.ok none) (.error .staleToken) exampleInput none "T" = .error .staleToken ∧
    setTimeEntry (.error .auth) (.ok ()) exampleInput none "T"
      = setTimeEntry (.ok none) (.ok ()) exampleInput none "T" :=
  ⟨(setEntry_write_failure_propagates _ _ _ _ _).1 .staleToken rfl,
   (setEntry_write_failure_propagates _ _ _ _ _).2 .auth rfl⟩

/-- Claim C7: the legacy shim is the identity on any record that already has
a `logs` array; on a legacy record without `logs` but with a scalar `hours`
it synthesizes a single log dated by the updatedAt-or-createdAt timestamp
truncated to the calendar date (first 10 characters) with that scalar as
hours; and the shim is idempotent. -/
theorem migrate_shim_idempotent (now : String) (doc : TimeEntryDoc) :
    (∀ L, doc.logs = some L → migrateDoc now doc = doc) ∧
    (∀ h u, doc.logs = none → doc.hours = some h → doc.updatedAt = some u → u ≠ "" →
      migrateDoc now doc = { doc with logs := some [⟨u.take 10, h⟩] }) ∧
    (∀ h cta, doc.logs = none → doc.hours = some h → doc.updatedAt = none →
      doc.createdAt = some cta → cta ≠ "" →
      migrateDoc now doc = { doc with logs := some [⟨cta.take 10, h⟩] }) ∧
    migrateDoc now (migrateDoc now doc) = migrateDoc now doc := by
  refine ⟨?_, ?_, ?_, ?_⟩
  · intro L hL
    exact migrateDoc_of_logs_some now doc (by rw [hL]; rfl)
  · intro h u hlogs hh hu hne
    unfold migrateDoc
    simp [hlogs, hh, hu, jsOr, hne]
  · intro h cta hlogs hh hu hcta hne
    unfold migrateDoc
    simp [hlogs, hh, hu, hcta, jsOr, hne]
  · cases hl : doc.logs with
    | some L =>
        have hid := migrateDoc_of_logs_some now doc (by rw [hl]; rfl)
        rw [hid, hid]
    | none =>
        cases hh : doc.hours with
        | none =>
            have hid : migrateDoc now doc = doc := by
              unfold migrateDoc
              simp [hl, hh]
            rw [hid, hid]
        | some h =>
            have h1 : migrateDoc now doc
                = { doc with
                    logs := some [⟨(jsOr doc.updatedAt (jsOr doc.createdAt now)).take 10, h⟩] } := by
              unfold migrateDoc
              simp [hl, hh]
            rw [h1]
            exact migrateDoc_of_logs_some now _ rfl

/-- Witness for C7: the shim migrates a concrete legacy document (deriving
the log date from its `updatedAt`), is the identity on the migrated result,
and is idempotent on it. -/
theorem migrate_shim_idempotent_witness :
    migrateDoc "now" exLegacyDoc
      = { exLegacyDoc with logs := some [⟨"2023-06-02", 4⟩] } ∧
    migrateDoc "now" (migrateDoc "now" exLegacyDoc) = migrateDoc "now" exLegacyDoc := by
  constructor
  · have h := (migrate_shim_idempotent "now" exLegacyDoc).2.1 4
      "2023-06-02T09:30:00.000Z" (by decide) (by decide) (by decide) (by decide)
    rw [h]
    decide
  · exact (migrate_shim_idempotent "now" exLegacyDoc).2.2.2

/-- Claim C8: on any store failure the bulk read returns the empty sequence
instead of propagating; on success it returns every stored document with
the legacy shim applied (the source's `Number(workItemId)` normalization is
the identity on this numeric model). -/
theorem getAll_fails_soft (readRes : Except StoreErr (List TimeEntryDoc)) (now : String) :
    (∀ err, readRes = .error err → getAllTimeEntries readRes now = []) ∧
    (∀ docs, readRes = .ok docs →
      getAllTimeEntries readRes now = docs.map (migrateDoc now)) := by
  constructor
  · rintro err rfl
    rfl
  · rintro docs rfl
    cases docs <;> simp [getAllTimeEntries]

/-- Witness for C8: a network failure yields `[]`; a successful read of one
legacy document yields its migrated form. -/
theorem getAll_fails_soft_witness :
    getAllTimeEntries (.error .network) "now" = [] ∧
    getAllTimeEntries (.ok [exLegacyDoc]) "now" = [exLegacyDoc].map (migrateDoc "now") :=
  ⟨(getAll_fails_soft _ "now").1 .network rfl,
   (getAll_fails_soft _ "now").2 [exLegacyDoc] rfl⟩

/-- Claim C9: a `setTimeEntry` write over an existing record sets
`updatedAt` to now, preserves the record's (nonempty) `createdAt`, and
carries the concurrency token through unchanged — present exactly when the
existing record carried one; a first creation sets `createdAt` to now and
includes no token. -/
theorem setEntry_frame_conditions (ex : TimeEntryDoc) (e : EntryInput)
    (c : Option String) (now : String) :
    ((setTimeEntryCore (some ex) e c now).updatedAt = some now ∧
      (∀ s, ex.createdAt = some s → s ≠ "" →
        (setTimeEntryCore (some ex) e c now).createdAt = some s) ∧
      (setTimeEntryCore (some ex) e c now).etag = ex.etag) ∧
    ((setTimeEntryCore none e c now).updatedAt = some now ∧
      (setTimeEntryCore none e c now).createdAt = some now ∧
      (setTimeEntryCore none e c now).etag = none) := by
  refine ⟨⟨rfl, ?_, rfl⟩, rfl, rfl, rfl⟩
  intro s hs hne
  show some (jsOr ((some ex).bind (·.createdAt)) now) = some s
  simp [hs, jsOr, hne]

/-- Witness for C9: a write over the concrete stored document preserves its
`createdAt` and its (absent) token, and stamps the new `updatedAt`. -/
theorem setEntry_frame_conditions_witness :
    (setTimeEntryCore (some exStoredDoc) exampleInput none "T2").updatedAt = some "T2" ∧
    (setTimeEntryCore (some exStoredDoc) exampleInput none "T2").createdAt
      = some "2024-01-01T10:00:00.000Z" ∧
    (setTimeEntryCore (some exStoredDoc) exampleInput none "T2").etag = exStoredDoc.etag := by
  have h := setEntry_frame_conditions exStoredDoc exampleInput none "T2"
  exact ⟨h.1.1, h.1.2.1 "2024-01-01T10:00:00.000Z" (by decide) (by decide), h.1.2.2⟩

/-- Claim C10: `getSettings` never propagates a store error — any read
failure yields exactly the built-in default `{hourIncrement := 0.5}`; a
successfully read document overrides the defaults key-by-key, missing keys
falling back to the default. -/
theorem getSettings_never_propagates (readRes : Except StoreErr PartialSettings) :
    (∀ err, readRes = .error err → getSettings readRes = { hourIncrement := 1/2 }) ∧
    (∀ s, readRes = .ok s →
      (∀ h, s.hourIncrement = some h → getSettings readRes = { hourIncrement := h }) ∧
      (s.hourIncrement = none → getSettings readRes = { hourIncrement := 1/2 })) := by
  constructor
  · rintro err rfl
    rfl
  · rintro s rfl
    constructor
    · intro h hh
      simp [getSettings, hh]
    · intro hh
      simp [getSettings, hh, DEFAULT_SETTINGS]

/-- Witness for C10: a network failure, a stored override, and a stored
document missing the key. -/
theorem getSettings_never_propagates_witness :
    getSettings (.error .network) = { hourIncrement := 1/2 } ∧
    getSettings (.ok ⟨some 2⟩) = { hourIncrement := 2 } ∧
    getSettings (.ok ⟨none⟩) = { hourIncrement := 1/2 } :=
  ⟨(getSettings_never_propagates _).1 .network rfl,
   ((getSettings_never_propagates _).2 ⟨some 2⟩ rfl).1 2 rfl,
   ((getSettings_never_propagates _).2 ⟨none⟩ rfl).2 rfl⟩

/-! ## Claim C4: CSV export round-trip -/

theorem csvParseAux_nil (b : Bool) (fld : List Char) (row : List (List Char))
    (rows : List (List (List Char))) :
    csvParseAux [] b fld row rows = rows ++ [row ++ [fld]] := rfl

theorem csvParseAux_cons_false (c : Char) (cs fld : List Char) (row : List (List Char))
    (rows : List (List (List Char))) :
    csvParseAux (c :: cs) false fld row rows =
      if c = '"' then csvParseAux cs true fld row rows
      else if c = ',' then csvParseAux cs false [] (row ++ [fld]) rows
      else if c = '\n' then csvParseAux cs false [] [] (rows ++ [row ++ [fld]])
      else csvParseAux cs false (fld ++ [c]) row rows := rfl

theorem csvParseAux_cons_true (c : Char) (cs fld : List Char) (row : List (List Char))
    (rows : List (List (List Char))) :
    csvParseAux (c :: cs) true fld row rows =
      if c = '"' then
        (match cs with
          | c' :: cs' =>
              if c' = '"' then csvParseAux cs' true (fld ++ ['"']) row rows
              else csvParseAux (c' :: cs') false fld row rows
          | [] => rows ++ [row ++ [fld]])
      else csvParseAux cs true (fld ++ [c]) row rows := by
  cases cs with
  | nil => rfl
  | cons c' cs' => rfl

theorem csvParseAux_comma (cs fld : List Char) (row : List (List Char))
    (rows : List (List (List Char))) :
    csvParseAux (',' :: cs) false fld row rows
      = csvParseAux cs false [] (row ++ [fld]) rows := by
  rw [csvParseAux_cons_false, if_neg (by decide), if_pos rfl]

theorem csvParseAux_newline (cs fld : List Char) (row : List (List Char))
    (rows : List (List (List Char))) :
    csvParseAux ('\n' :: cs) false fld row rows
      = csvParseAux cs false [] [] (rows ++ [row ++ [fld]]) := by
  rw [csvParseAux_cons_false, if_neg (by decide), if_neg (by decide), if_pos rfl]

theorem csvParseAux_openQuote (cs fld : List Char) (row : List (List Char))
    (rows : List (List (List Char))) :
    csvParseAux ('"' :: cs) false fld row rows = csvParseAux cs true fld row rows := by
  rw [csvParseAux_cons_false, if_pos rfl]

theorem csvParse_unquoted (f r fld : List Char) (row : List (List Char))
    (rows : List (List (List Char))) (hf : cleanField f) :
    csvParseAux (f ++ r) false fld row rows = csvParseAux r false (fld ++ f) row rows := by
  revert hf
  induction f generalizing fld with
  | nil =>
      intro _
      simp
  | cons c f ih =>
      intro hf
      obtain ⟨h1, h2, h3⟩ := hf
      have hq : ¬(c = '"') := fun hc => h2 (by simp [hc])
      have hcm : ¬(c = ',') := fun hc => h1 (by simp [hc])
      have hnl : ¬(c = '\n') := fun hc => h3 (by simp [hc])
      rw [List.cons_append, csvParseAux_cons_false, if_neg hq, if_neg hcm, if_neg hnl,
        ih (fld ++ [c]) ⟨fun hm => h1 (List.mem_cons_of_mem _ hm),
          fun hm => h2 (List.mem_cons_of_mem _ hm),
          fun hm => h3 (List.mem_cons_of_mem _ hm)⟩]
      simp

theorem csvParse_quoted (s r fld : List Char) (row : List (List Char))
    (rows : List (List (List Char))) (hr : ∀ c' r', r = c' :: r' → c' ≠ '"') :
    csvParseAux (escQuotes s ++ '"' :: r) true fld row rows
      = csvParseAux r false (fld ++ s) row rows := by
  induction s generalizing fld with
  | nil =>
      rw [show escQuotes [] ++ '"' :: r = '"' :: r from rfl]
      rw [csvParseAux_cons_true, if_pos rfl]
      cases r with
      | nil => simp [csvParseAux_nil]
      | cons c' r' =>
          have hc' : ¬(c' = '"') := hr c' r' rfl
          simp only [if_neg hc']
          simp
  | cons c s ih =>
      by_cases hc : c = '"'
      · subst hc
        rw [show escQuotes ('"' :: s) = '"' :: '"' :: escQuotes s from by simp [escQuotes]]
        rw [List.cons_append, List.cons_append, csvParseAux_cons_true, if_pos rfl]
        simp only [if_pos rfl]
        rw [ih (fld ++ ['"'])]
        simp
      · rw [show escQuotes (c :: s) = c :: escQuotes s from by simp [escQuotes, hc]]
        rw [List.cons_append, csvParseAux_cons_true, if_neg hc, ih (fld ++ [c])]
        simp

theorem csvParse_rowCore (l : FlatLog) (t : List Char) (rows : List (List (List Char)))
    (hcl : cleanRow l) :
    csvParseAux (joinSep ',' (csvRowFields l) ++ t) false [] [] rows
      = csvParseAux t false l.date.data
          [ '#' :: (toString l.workItemId).data,
            (jsOr l.workItemType "-").data,
            (toString l.hours).data,
            (jsOr l.userName (jsOr (some l.userId) "-")).data,
            l.description.data ] rows := by
  obtain ⟨hc1, hc2, hc3, hc4, hc5⟩ := hcl
  have hexp : joinSep ',' (csvRowFields l) ++ t
      = ('#' :: (toString l.workItemId).data) ++ ',' ::
        ((jsOr l.workItemType "-").data ++ ',' ::
          ((toString l.hours).data ++ ',' ::
            ((jsOr l.userName (jsOr (some l.userId) "-")).data ++ ',' ::
              ('"' :: (escQuotes l.description.data ++ '"' ::
                (',' :: (l.date.data ++ t))))))) := by
    simp [csvRowFields, joinSep, List.append_assoc]
  rw [hexp,
    csvParse_unquoted _ _ _ _ _ hc1,
    csvParseAux_comma,
    csvParse_unquoted _ _ _ _ _ hc2,
    csvParseAux_comma,
    csvParse_unquoted _ _ _ _ _ hc3,
    csvParseAux_comma,
    csvParse_unquoted _ _ _ _ _ hc4,
    csvParseAux_comma,
    csvParseAux_openQuote,
    csvParse_quoted _ _ _ _ _ (fun c' r' hh => by cases hh; decide),
    csvParseAux_comma,
    csvParse_unquoted _ _ _ _ _ hc5]
  simp

theorem csvParse_header (t : List Char) (rows : List (List (List Char))) :
    csvParseAux (csvHeader ++ t) false [] [] rows
      = csvParseAux t false "Date".data
          ["Work Item".data, "Type".data, "Hours".data, "User".data,
            "Description".data] rows := by
  have hexp : csvHeader ++ t
      = "Work Item".data ++ ',' :: ("Type".data ++ ',' :: ("Hours".data ++ ',' ::
          ("User".data ++ ',' :: ("Description".data ++ ',' :: ("Date".data ++ t))))) := rfl
  rw [hexp,
    csvParse_unquoted _ _ _ _ _ (by decide),
    csvParseAux_comma,
    csvParse_unquoted _ _ _ _ _ (by decide),
    csvParseAux_comma,
    csvParse_unquoted _ _ _ _ _ (by decide),
    csvParseAux_comma,
    csvParse_unquoted _ _ _ _ _ (by decide),
    csvParseAux_comma,
    csvParse_unquoted _ _ _ _ _ (by decide),
    csvParseAux_comma,
    csvParse_unquoted _ _ _ _ _ (by decide)]
  simp

theorem csvParse_rows (ls : List FlatLog) :
    ∀ (l : FlatLog) (rows : List (List (List Char))),
      (∀ x ∈ l :: ls, cleanRow x) →
      csvParseAux (joinSep '\n' ((l :: ls).map (fun x => joinSep ',' (csvRowFields x))))
          false [] [] rows
        = rows ++ (l :: ls).map expectedFields := by
  induction ls with
  | nil =>
      intro l rows hcl
      simp only [List.map_cons, List.map_nil]
      rw [show joinSep '\n' [joinSep ',' (csvRowFields l)]
        = joinSep ',' (csvRowFields l) ++ [] from by simp [joinSep]]
      rw [csvParse_rowCore l [] rows (hcl l (List.mem_cons_self _ _))]
      rw [csvParseAux_nil]
      simp [expectedFields]
  | cons l2 ls ih =>
      intro l rows hcl
      simp only [List.map_cons]
      rw [show joinSep '\n' (joinSep ',' (csvRowFields l) ::
            joinSep ',' (csvRowFields l2) :: List.map (fun x => joinSep ',' (csvRowFields x)) ls)
          = joinSep ',' (csvRowFields l) ++ '\n' ::
              joinSep '\n' (joinSep ',' (csvRowFields l2) ::
                List.map (fun x => joinSep ',' (csvRowFields x)) ls) from rfl]
      rw [csvParse_rowCore l _ rows (hcl l (List.mem_cons_self _ _))]
      rw [csvParseAux_newline]
      have hstep := ih l2 (rows ++
        [[ '#' :: (toString l.workItemId).data,
           (jsOr l.workItemType "-").data,
           (toString l.hours).data,
           (jsOr l.userName (jsOr (some l.userId) "-")).data,
           l.description.data ] ++ [l.date.data]])
        (fun x hx => hcl x (List.mem_cons_of_mem _ hx))
      simp only [List.map_cons] at hstep
      rw [hstep]
      simp [expectedFields, List.append_assoc]

/-- Claim C4 amended: parsing the export with a standard CSV parser recovers
the header and exactly the input rows' field values, for every sequence of
rows whose unquoted fields (work-item id, type, hours, user, date) are free
of delimiter, quote and line-break characters; the quoted description field
round-trips for every value, including descriptions containing commas,
quotes and line breaks. -/
theorem exportToCSV_roundtrip (logs : List FlatLog) (hcl : ∀ l ∈ logs, cleanRow l) :
    parseCSV (exportToCSV logs) = csvHeaderFields :: logs.map expectedFields := by
  cases logs with
  | nil => decide
  | cons l ls =>
      unfold parseCSV exportToCSV
      simp only [List.map_cons]
      rw [show joinSep '\n' (csvHeader :: joinSep ',' (csvRowFields l) ::
            List.map (fun x => joinSep ',' (csvRowFields x)) ls)
          = csvHeader ++ '\n' ::
              joinSep '\n' (joinSep ',' (csvRowFields l) ::
                List.map (fun x => joinSep ',' (csvRowFields x)) ls) from rfl]
      rw [csvParse_header, csvParseAux_newline]
      have hrows := csvParse_rows ls l
        ([] ++ [["Work Item".data, "Type".data, "Hours".data, "User".data,
          "Description".data] ++ ["Date".data]]) hcl
      simp only [List.map_cons] at hrows
      rw [hrows]
      simp [csvHeaderFields]

/-- Witness for the amended C4: a concrete row whose description contains a
quoted quote, a comma and a line break round-trips exactly. -/
theorem exportToCSV_roundtrip_witness :
    (∀ l ∈ [trickyDescLog], cleanRow l) ∧
    parseCSV (exportToCSV [trickyDescLog])
      = csvHeaderFields :: [trickyDescLog].map expectedFields :=
  ⟨by decide, exportToCSV_roundtrip [trickyDescLog] (by decide)⟩

/-- Counterexample to claim C4 as stated: a user display name containing the
delimiter ("Doe, John") is emitted unquoted, so a standard CSV parse of the
export does not recover the input row's field values — the data row parses
into seven fields instead of six. -/
theorem exportToCSV_comma_user_breaks :
    parseCSV (exportToCSV [commaUserLog])
      ≠ [csvHeaderFields, expectedFields commaUserLog] ∧
    ((parseCSV (exportToCSV [commaUserLog])).getD 1 []).length = 7 := by
  constructor
  · decide
  · decide

/-- Witness for C5: concrete filter inputs (a date range and a user id,
other criteria absent) applied to a concrete row list. -/
theorem applyFilters_exact_witness :
    applyFilters ⟨"2024-01-01", "2024-12-31", "u1", "", ""⟩ [commaUserLog]
      = [commaUserLog].filter (fun l =>
          decide (satisfiesCriteria (strOpt "2024-01-01") (strOpt "2024-12-31")
            (strOpt "u1") (strOpt "") (strOpt "") l)) ∧
    (commaUserLog ∈ applyFilters ⟨"2024-01-01", "2024-12-31", "u1", "", ""⟩ [commaUserLog] ↔
      commaUserLog ∈ [commaUserLog] ∧
        satisfiesCriteria (strOpt "2024-01-01") (strOpt "2024-12-31")
          (strOpt "u1") (strOpt "") (strOpt "") commaUserLog) :=
  ⟨(applyFilters_exact ⟨"2024-01-01", "2024-12-31", "u1", "", ""⟩ [commaUserLog]).1,
   (applyFilters_exact ⟨"2024-01-01", "2024-12-31", "u1", "", ""⟩ [commaUserLog]).2 commaUserLog⟩

end TimeTracker
